import Mathlib

/-!
Verification development for the per-bank disassembly engine of mgbdis
(src/mgbdis.py).  The Python code is shallowly embedded: dictionaries
become association lists whose key semantics ("insert overwrites the
entry with the same key") is given by `dinsert`; the order of entries in
the association list is irrelevant because every consumer of a block
dictionary first sorts its keys.  Python integers are embedded as `Int`
where subtraction or floor division can go negative (region lengths,
branch targets), and as `Nat` where only non-negative values occur
(ROM offsets, opcode bytes).
-/

/-! ## Region map (Bank.__init__ / Bank.add_block / Bank.resolve_blocks) -/

inductive BlockType where
  | code
  | data
  | text
deriving DecidableEq, Repr

structure BlockInfo where
  btype : BlockType
  length : Int
deriving DecidableEq, Repr

/-- An association list standing for the Python dict `self.blocks`. -/
abbrev Blocks := List (Int × BlockInfo)

/-- Dict assignment `d[k] = v`: any earlier entry for `k` is removed. -/
def dinsert (bs : Blocks) (k : Int) (v : BlockInfo) : Blocks :=
  bs.filter (fun p => p.1 != k) ++ [(k, v)]

/-- Dict lookup `d[k]` (as an `Option`; the sources only look up present keys). -/
def dlookup (bs : Blocks) (k : Int) : Option BlockInfo :=
  (bs.find? (fun p => p.1 == k)).map (·.2)

def keysOf (bs : Blocks) : List Int := bs.map (·.1)

/-- The region-map part of `Bank`: `memory_base_address` and `blocks`. -/
structure RegionBank where
  memory_base_address : Int
  blocks : Blocks
deriving Repr

/-- `Bank.add_block`: record a hint, ignoring addresses below the bank base
(the source checks only `address >= self.memory_base_address`). -/
def add_block (b : RegionBank) (address : Int) (block_type : BlockType) (length : Int) :
    RegionBank :=
  if address ≥ b.memory_base_address then
    { b with blocks := dinsert b.blocks address ⟨block_type, length⟩ }
  else b

/-- `Bank.__init__`: bank 0 is based at 0, others at 0x4000; each bank starts
with a single whole-window code block. -/
def mkBank (number : Nat) : RegionBank :=
  let base : Int := if number = 0 then 0 else 0x4000
  add_block ⟨base, []⟩ base .code 0x4000

/-- Insert into a weakly sorted list of keys. -/
def insSorted (x : Int) : List Int → List Int
  | [] => [x]
  | y :: ys => if x ≤ y then x :: y :: ys else y :: insSorted x ys

/-- `sorted(keys)` on a list of distinct dict keys. -/
def sortInts : List Int → List Int
  | [] => []
  | x :: xs => insSorted x (sortInts xs)

/-- The loop body of `Bank.resolve_blocks`, walking the sorted start
addresses.  `bs` is the original (unresolved) dict, `acc` the dict
`resolved_blocks` being built. -/
def resolveLoop (base : Int) (bs : Blocks) : List Int → Blocks → Blocks
  | [], acc => acc
  | k :: rest, acc =>
    let bi := (dlookup bs k).getD ⟨.code, 0⟩
    let e0 := k + bi.length
    match rest with
    | [] =>
      -- no more blocks: close out, padding with a code block if needed
      let acc := dinsert acc k ⟨bi.btype, e0 - k⟩
      if e0 ≠ base + 0x4000 then
        dinsert acc e0 ⟨.code, base + 0x4000 - e0⟩
      else acc
    | k' :: _ =>
      -- truncate at the next start address, pad any gap with a code block
      let e := if k' < e0 then k' else e0
      let acc := dinsert acc k ⟨bi.btype, e - k⟩
      let acc := if e < k' then dinsert acc e ⟨.code, k' - e⟩ else acc
      resolveLoop base bs rest acc

/-- `Bank.resolve_blocks`. -/
def resolve_blocks (b : RegionBank) : RegionBank :=
  { b with
    blocks := resolveLoop b.memory_base_address b.blocks (sortInts (keysOf b.blocks)) [] }

/-- The region list as the rest of the program consumes it:
`sorted(self.blocks.keys())` with a lookup per key (`Bank.disassemble`). -/
def regionList (b : RegionBank) : List (Int × BlockInfo) :=
  (sortInts (keysOf b.blocks)).map (fun k => (k, (dlookup b.blocks k).getD ⟨.code, 0⟩))

/-- A region hint as passed to `add_region`/`add_block`. -/
structure Hint where
  address : Int
  btype : BlockType
  length : Int
deriving DecidableEq, Repr

/-- A bank after an arbitrary sequence of `add_block` calls. -/
def applyHints (number : Nat) (hints : List Hint) : RegionBank :=
  hints.foldl (fun b h => add_block b h.address h.btype h.length) (mkBank number)

/-- `isChainB lo hi l`: the regions in `l`, in list order, start at `lo`,
abut exactly (each begins where the previous ends), have non-negative
lengths, and end exactly at `hi`.  For the sorted region list this is
precisely "sorted, pairwise non-overlapping, union covers `[lo, hi)`
exactly once per address". -/
def isChainB (lo hi : Int) : List (Int × BlockInfo) → Bool
  | [] => lo == hi
  | (k, bi) :: rest => k == lo && decide (0 ≤ bi.length) && isChainB (lo + bi.length) hi rest

/-! ## Formatting helpers (hex_byte / hex_word / to_signed) -/

def hexDigitChar (n : Nat) : Char :=
  if n = 0 then '0' else if n = 1 then '1' else if n = 2 then '2' else if n = 3 then '3'
  else if n = 4 then '4' else if n = 5 then '5' else if n = 6 then '6' else if n = 7 then '7'
  else if n = 8 then '8' else if n = 9 then '9' else if n = 10 then 'a' else if n = 11 then 'b'
  else if n = 12 then 'c' else if n = 13 then 'd' else if n = 14 then 'e' else 'f'

/-- `'${:02x}'.format(value)` for the byte-sized values it is applied to. -/
def hex_byte (value : Nat) : String :=
  "$" ++ String.mk [hexDigitChar (value / 16 % 16), hexDigitChar (value % 16)]

/-- `'${:04x}'.format(value)` for the word-sized values it is applied to. -/
def hex_word (value : Nat) : String :=
  "$" ++ String.mk [hexDigitChar (value / 4096 % 16), hexDigitChar (value / 256 % 16),
                    hexDigitChar (value / 16 % 16), hexDigitChar (value % 16)]

/-- `'{:03x}'.format(value)` (used for bank numbers in generated label names). -/
def hex_bank (value : Nat) : String :=
  String.mk [hexDigitChar (value / 256 % 16), hexDigitChar (value / 16 % 16),
             hexDigitChar (value % 16)]

/-- `to_signed`: interpret a byte as a signed 8-bit value
(`(256 - value) * -1` equals `value - 256`). -/
def to_signed (value : Nat) : Int :=
  if value > 127 then (value : Int) - 256 else (value : Int)

/-- `rom_address_to_mem_address` on ROM offsets (non-negative). -/
def rom_address_to_mem_address (address : Nat) : Nat :=
  if address < 0x4000 then address else address % 0x4000 + 0x4000

/-- `rom_address_to_mem_address` as applied to a possibly negative computed
relative-branch target (Python `%` with a positive modulus, i.e. `Int.emod`
adjusted to a non-negative result, which `%` on `Int` already is). -/
def rom_address_to_mem_address_int (address : Int) : Int :=
  if address < 0x4000 then address else address % 0x4000 + 0x4000

/-- Python `str.startswith` on the one-character uses in the source. -/
def str_startswith (s p : String) : Bool :=
  p.data.isPrefixOf s.data

/-! ## Hardware register table (module-level `hardware_labels`) -/

def hardware_labels_list : List (Nat × String) :=
  [(0xFF00, "rP1"), (0xFF01, "rSB"), (0xFF02, "rSC"), (0xFF04, "rDIV"),
   (0xFF05, "rTIMA"), (0xFF06, "rTMA"), (0xFF07, "rTAC"), (0xFF0F, "rIF"),
   (0xFF40, "rLCDC"), (0xFF41, "rSTAT"), (0xFF42, "rSCY"), (0xFF43, "rSCX"),
   (0xFF44, "rLY"), (0xFF45, "rLYC"), (0xFF46, "rDMA"), (0xFF47, "rBGP"),
   (0xFF48, "rOBP0"), (0xFF49, "rOBP1"), (0xFF4A, "rWY"), (0xFF4B, "rWX"),
   (0xFF4D, "rKEY1"), (0xFF4F, "rVBK"), (0xFF51, "rHDMA1"), (0xFF52, "rHDMA2"),
   (0xFF53, "rHDMA3"), (0xFF54, "rHDMA4"), (0xFF55, "rHDMA5"), (0xFF56, "rRP"),
   (0xFF68, "rBCPS"), (0xFF69, "rBCPD"), (0xFF6A, "rOCPS"), (0xFF6B, "rOCPD"),
   (0xFF70, "rSVBK"), (0xFFFF, "rIE"), (0xFF24, "rNR50"), (0xFF25, "rNR51"),
   (0xFF26, "rNR52"), (0xFF10, "rNR10"), (0xFF11, "rNR11"), (0xFF12, "rNR12"),
   (0xFF13, "rNR13"), (0xFF14, "rNR14"), (0xFF16, "rNR21"), (0xFF17, "rNR22"),
   (0xFF18, "rNR23"), (0xFF19, "rNR24"), (0xFF1A, "rNR30"), (0xFF1B, "rNR31"),
   (0xFF1C, "rNR32"), (0xFF1D, "rNR33"), (0xFF1E, "rNR34"), (0xFF20, "rNR41"),
   (0xFF21, "rNR42"), (0xFF22, "rNR43"), (0xFF23, "rNR44")]

def hardware_labels (address : Nat) : Option String :=
  (hardware_labels_list.find? (fun p => p.1 == address)).map (·.2)

/-! ## Bank label state and label resolution -/

/-- The label-related state of a `Bank` as read during emission:
`bank_number`, `labelled_addresses`, `disassembled_addresses` and
`target_addresses` (the latter two are sets, embedded as predicates). -/
structure BankEnv where
  bank_number : Nat
  labelled : Int → Option String
  disassembled : Int → Bool
  targets : String → Int → Bool

/-- `Bank.instruction_label_prefixes` (keyed by `call`/`jp`/`jr` only). -/
def instruction_label_prefixes (instruction_name : String) : String :=
  if instruction_name = "call" then "Call"
  else if instruction_name = "jp" then "Jump"
  else if instruction_name = "jr" then "jr"
  else ""

/-- Render a possibly negative address the way `'{:04x}'` renders the
non-negative addresses this is applied to. -/
def hex_addr (address : Int) : String :=
  if address < 0 then "-" ++ hex_word address.natAbs else hex_word address.toNat

/-- `Bank.format_label`. -/
def format_label (bank : BankEnv) (instruction_name : String) (address : Int) : String :=
  instruction_label_prefixes instruction_name ++ "_" ++ hex_bank bank.bank_number ++ "_"
    ++ hex_addr address

/-- `Bank.get_label_for_instruction_operand`. -/
def get_label_for_instruction_operand (bank : BankEnv) (instruction_name : String)
    (address : Int) : Option String :=
  if bank.disassembled address = false then none
  else
    match bank.labelled address with
    | some label => some label
    | none =>
      if bank.targets instruction_name address then
        some (format_label bank instruction_name address)
      else none

/-- `Bank.get_labels_for_non_code_address`. -/
def get_labels_for_non_code_address (bank : BankEnv) (address : Int) : List String :=
  match bank.labelled address with
  | some label => if label.front = '.' then [label ++ ":"] else [label ++ "::"]
  | none => []

/-! ## Instruction decoder (Bank.disassemble_at_pc) -/

/-- The externally supplied opcode tables (`instructions` / `cb_instructions`
after `ROM.split_instructions`): opcode byte to mnemonic plus operand tags. -/
structure Tables where
  main : Nat → Option (String × List String)
  cb : Nat → Option (String × List String)

/-- The mutable locals of the operand loop of `disassemble_at_pc`, plus the
two effects the loop can have outside the `Bank`: setting
`rom.has_ld_long` and (first pass) the `add_label` calls it performs. -/
structure OpState where
  length : Nat
  instruction_name : String
  operand_values : List String
  has_ld_long : Bool
  recorded : List (String × Int)
deriving DecidableEq, Repr

/-- One arm of the `for operand in operands` dispatch (everything before the
trailing label bookkeeping).  Returns the updated state, the `value` local
this iteration leaves behind, and whether the loop `break`s (cross-bank
backward relative jump).  Only `bank_number` is read here, so this part of
the decoder cannot depend on any label table. -/
def operandDispatch (bank_number : Nat) (rom : Nat → Nat) (pc : Nat) (opcode : Nat)
    (operand : String) (st : OpState) : OpState × Option Int × Bool :=
  if operand = "a16" then
    let v : Nat := rom (pc + 1) + rom (pc + 2) * 256
    ({ st with length := st.length + 2,
               operand_values := st.operand_values ++ [hex_word v] }, some (v : Int), false)
  else if operand = "[a16]" then
    let v : Nat := rom (pc + 1) + rom (pc + 2) * 256
    let st := { st with length := st.length + 2,
                        operand_values := st.operand_values ++ ["[" ++ hex_word v ++ "]"] }
    if v ≥ 0xFF00 ∧ (opcode = 0xEA ∨ opcode = 0xFA) then
      -- re-tag as the ld_long macro and unwrap the square brackets
      ({ st with has_ld_long := true,
                 instruction_name := "ld_long",
                 operand_values := st.operand_values.dropLast ++ [hex_word v] },
        some (v : Int), false)
    else (st, some (v : Int), false)
  else if operand = "[$ff00+a8]" then
    let v : Nat := rom (pc + 1)
    let full_value : Nat := 0xFF00 + v
    let st := { st with length := st.length + 1 }
    match hardware_labels full_value with
    | some label =>
      ({ st with operand_values := st.operand_values ++ ["[" ++ label ++ "]"] },
        some (v : Int), false)
    | none =>
      ({ st with operand_values := st.operand_values ++ ["[$ff00+" ++ hex_byte v ++ "]"] },
        some (v : Int), false)
  else if operand = "d8" then
    let v : Nat := rom (pc + 1)
    ({ st with length := st.length + 1,
               operand_values := st.operand_values ++ [hex_byte v] }, some (v : Int), false)
  else if operand = "d16" then
    let v : Nat := rom (pc + 1) + rom (pc + 2) * 256
    ({ st with length := st.length + 2,
               operand_values := st.operand_values ++ [hex_word v] }, some (v : Int), false)
  else if operand = "r8" then
    let v : Int := to_signed (rom (pc + 1))
    ({ st with length := st.length + 1,
               operand_values := st.operand_values ++
                 [if v < 0 then "-" ++ hex_byte v.natAbs else hex_byte v.toNat] },
      some v, false)
  else if operand = "pc+r8" then
    let sv : Int := to_signed (rom (pc + 1))
    -- absolute ROM address of the jump target
    let value : Int := (pc : Int) + 2 + sv
    let relative_value : Int := value - (pc : Int)
    let st := { st with length := st.length + 1,
                        operand_values := st.operand_values ++
                          [if relative_value ≥ 0 then "@+" ++ hex_byte relative_value.toNat
                           else "@-" ++ hex_byte (relative_value * (-1)).toNat] }
    let target_bank : Int := value.fdiv 0x4000
    let mem : Int := rom_address_to_mem_address_int value
    let value' : Option Int := if (bank_number : Int) ≠ target_bank then none else some mem
    if target_bank < (bank_number : Int) then
      ({ st with instruction_name := "DB",
                 operand_values := [hex_byte opcode, hex_byte (rom (pc + 1))] },
        value', true)
    else (st, value', false)
  else if operand = "sp+r8" then
    let v : Int := to_signed (rom (pc + 1))
    ({ st with length := st.length + 1,
               operand_values := st.operand_values ++
                 [if v < 0 then "sp-" ++ hex_byte v.natAbs else "sp+" ++ hex_byte v.toNat] },
      some v, false)
  else
    -- any other (string) operand is passed through verbatim
    ({ st with operand_values := st.operand_values ++ [operand] }, none, false)

/-- The trailing label bookkeeping of each operand-loop iteration: record a
branch target during discovery, substitute a label during emission, or
substitute an explicit high-memory label for a resolved address operand. -/
def operandLabelCheck (bank : BankEnv) (first_pass : Bool) (value : Option Int)
    (st : OpState) : OpState :=
  match value with
  | none => st
  | some v =>
    if (st.instruction_name = "jr" ∨ st.instruction_name = "jp" ∨
        st.instruction_name = "call") ∧ v < 0x8000 then
      let mem_address := rom_address_to_mem_address_int v
      -- dont allow switched banks to create labels in bank 0
      if (mem_address < 0x4000 ∧ bank.bank_number = 0) ∨
         (mem_address ≥ 0x4000 ∧ bank.bank_number > 0) then
        if first_pass then
          { st with recorded := st.recorded ++ [(st.instruction_name, mem_address)] }
        else
          match get_label_for_instruction_operand bank st.instruction_name mem_address with
          | some label => { st with operand_values := st.operand_values.dropLast ++ [label] }
          | none => st
      else st
    else if v ≥ 0xC000 then
      match bank.labelled v with
      | some label =>
        let operand := st.operand_values.getLastD ""
        { st with operand_values := st.operand_values.dropLast ++
            [if str_startswith operand "[" then "[" ++ label ++ "]" else label] }
      | none => st
    else st

/-- One full iteration of the operand loop. -/
def opStep (bank : BankEnv) (rom : Nat → Nat) (pc : Nat) (opcode : Nat)
    (first_pass : Bool) (operand : String) (st : OpState) : OpState × Bool :=
  let d := operandDispatch bank.bank_number rom pc opcode operand st
  if d.2.2 then (d.1, true)
  else (operandLabelCheck bank first_pass d.2.1 d.1, false)

/-- The operand loop (`break` exits early). -/
def opLoop (bank : BankEnv) (rom : Nat → Nat) (pc : Nat) (opcode : Nat)
    (first_pass : Bool) : List String → OpState → OpState
  | [], st => st
  | operand :: rest, st =>
    let s := opStep bank rom pc opcode first_pass operand st
    if s.2 then s.1 else opLoop bank rom pc opcode first_pass rest s.1

/-- `Bank.disassemble_at_pc` up to (but not including) the final
region-boundary check: opcode lookup, CB prefix, the stop/halt quirk and
the operand loop.  `ld_long_0` is the incoming `rom.has_ld_long`;
`none` is the `abort` path for an opcode missing from the table. -/
def decodeCore (tbl : Tables) (bank : BankEnv) (rom : Nat → Nat) (first_pass : Bool)
    (ld_long_0 : Bool) (pc : Nat) : Option OpState :=
  let opcode := rom pc
  match tbl.main opcode with
  | none => none
  | some _ =>
    let info : Option (Nat × String × List String) :=
      if opcode = 0xCB then (tbl.cb (rom (pc + 1))).map (fun p => (2, p.1, p.2))
      else (tbl.main opcode).map (fun p => (1, p.1, p.2))
    match info with
    | none => none
    | some (length0, name0, operands0) =>
      let start : Nat × String × List String :=
        if name0 = "stop" ∨ name0 = "halt" then
          if rom (pc + 1) = 0 then (length0 + 1, name0, operands0)
          else (length0, "DB", [hex_byte opcode])
        else (length0, name0, operands0)
      some (opLoop bank rom pc opcode first_pass start.2.2
        ⟨start.1, start.2.1, [], ld_long_0, []⟩)

/-- `Bank.disassemble_at_pc`: the decode above followed by the check that the
instruction does not span past `end_address` (else it is re-encoded as a
single literal data byte). -/
def disassemble_at_pc (tbl : Tables) (bank : BankEnv) (rom : Nat → Nat)
    (first_pass : Bool) (ld_long_0 : Bool) (pc end_address : Nat) : Option OpState :=
  (decodeCore tbl bank rom first_pass ld_long_0 pc).map (fun st =>
    if pc + st.length - 1 ≥ end_address then
      { st with length := 1, instruction_name := "DB",
                operand_values := [hex_byte (rom pc)] }
    else st)

/-! ## Data-region emission (Bank.process_data_in_range) and output helpers -/

/-- `Bank.format_instruction` (the debug-comment branch is dead code). -/
def format_instruction (instruction_name : String) (operands : List String) : String :=
  "    " ++ instruction_name ++ " " ++ String.intercalate ", " operands

/-- `Bank.format_data`. -/
def format_data (data : List String) : String :=
  format_instruction "DB" data

/-- `Bank.append_empty_line_if_none_already` on the output line list. -/
def append_empty_line_if_none_already (out : List String) : List String :=
  if out.length > 0 ∧ out.getLastD "" ≠ "" then out ++ [""] else out

/-- `Bank.append_labels_to_output`. -/
def append_labels_to_output (out : List String) (labels : List String) : List String :=
  append_empty_line_if_none_already out ++ [String.intercalate "\n" labels]

/-- The label handling at the top of each `process_data_in_range` iteration:
flush any accumulated values to their own line, then emit the labels.
Returns the new accumulator and the new output. -/
def dataLabelStep (bank : BankEnv) (address : Nat) (values out : List String) :
    List String × List String :=
  let labels := get_labels_for_non_code_address bank
    ((rom_address_to_mem_address address : Nat) : Int)
  if labels ≠ [] then
    let flushed : List String × List String :=
      if values ≠ [] then ([], out ++ [format_data values]) else (values, out)
    (flushed.1, append_labels_to_output flushed.2 labels)
  else (values, out)

/-- The `for address in range(start_address, end_address)` loop of
`process_data_in_range`; the head of the address list is the current
address, and an empty tail means this is the last address of the range. -/
def dataLoop (bank : BankEnv) (rom : Nat → Nat) :
    List Nat → List String → List String → List String
  | [], _, out => out
  | address :: rest, values, out =>
    let p := dataLabelStep bank address values out
    let values := p.1 ++ [hex_byte (rom address)]
    -- output max of 16 bytes per line, and ensure remaining values are output
    if values.length = 16 ∨ (rest = [] ∧ values ≠ []) then
      dataLoop bank rom rest [] (p.2 ++ [format_data values])
    else
      dataLoop bank rom rest values p.2

/-- `Bank.process_data_in_range`, appending to an existing output list. -/
def process_data_in_range (bank : BankEnv) (rom : Nat → Nat)
    (start_address end_address : Nat) (out : List String) : List String :=
  dataLoop bank rom (List.range' start_address (end_address - start_address)) [] out

/-! ## Symbol distribution (ROM.add_symbol_definition, label branch) -/

/-- The per-bank `labelled_addresses` maps, indexed by bank number. -/
def BankLabelMaps : Type := Nat → Int → Option String

/-- The label branch of `ROM.add_symbol_definition`: an address at or above
0x8000 (RAM) is written into every bank's label table, a lower address
only into the named bank's table. -/
def add_symbol_label (banks : BankLabelMaps) (bank : Nat) (address : Int)
    (label : String) : BankLabelMaps :=
  if address ≥ 0x8000 then
    fun b a => if a = address then some label else banks b a
  else
    fun b a => if b = bank ∧ a = address then some label else banks b a

/-- Classification of an output line of a data region: it is an empty
separator line, a label block (as produced by
`get_labels_for_non_code_address` for some address), or a literal-byte
line carrying at most 16 values. -/
def LineOK (bank : BankEnv) (line : String) : Prop :=
  line = "" ∨
  (∃ a : Int, get_labels_for_non_code_address bank a ≠ [] ∧
     line = String.intercalate "\n" (get_labels_for_non_code_address bank a)) ∨
  (∃ vs : List String, vs.length ≤ 16 ∧ vs ≠ [] ∧ line = format_data vs)

/-! ## Concrete fixtures for witnesses and counterexamples -/

/-- An empty bank-0 label environment. -/
def fixBank0 : BankEnv := ⟨0, fun _ => none, fun _ => false, fun _ _ => false⟩

/-- Opcode table fragment: `0x18` is `jr pc+r8`. -/
def fixTablesJr : Tables :=
  ⟨fun n => if n = 0x18 then some ("jr", ["pc+r8"]) else none, fun _ => none⟩

/-- A `jr` at `0x3FE0` jumping forward by `0x30`, past the end of bank 0. -/
def fixRomJr : Nat → Nat :=
  fun a => if a = 0x3FE0 then 0x18 else if a = 0x3FE1 then 0x30 else 0

/-- An empty bank-1 label environment. -/
def fixBank1 : BankEnv := ⟨1, fun _ => none, fun _ => false, fun _ _ => false⟩

/-- A `jr` at ROM address `0x4000` (bank 1) jumping backwards into bank 0. -/
def fixRomJrBack : Nat → Nat :=
  fun a => if a = 0x4000 then 0x18 else if a = 0x4001 then 0x80 else 0

/-- Opcode table fragment: `0xEA` is `ld [a16],a`. -/
def fixTablesEA : Tables :=
  ⟨fun n => if n = 0xEA then some ("ld", ["[a16]", "a"]) else none, fun _ => none⟩

/-- A bank-0 environment carrying an explicit label at `0xFF40`. -/
def fixBankHigh : BankEnv :=
  ⟨0, fun a => if a = 0xFF40 then some "hLCDC" else none, fun _ => false, fun _ _ => false⟩

/-- `ld [$ff40],a` at address 0. -/
def fixRomEA : Nat → Nat :=
  fun a => if a = 0 then 0xEA else if a = 1 then 0x40 else if a = 2 then 0xFF else 0

/-- Opcode table fragment: `0x10` is `stop`, `0x00` is `nop`. -/
def fixTablesStop : Tables :=
  ⟨fun n => if n = 0x10 then some ("stop", []) else
            if n = 0 then some ("nop", []) else none, fun _ => none⟩

/-- A `stop` at address 0 followed by `0x00`. -/
def fixRomStop : Nat → Nat := fun a => if a = 0 then 0x10 else 0

/-- A bank-0 environment with an explicit label `HeaderLogo` at `0x104` and an
empty set of discovered instruction starts. -/
def fixBankHeader : BankEnv :=
  ⟨0, fun a => if a = 0x104 then some "HeaderLogo" else none, fun _ => false, fun _ _ => false⟩

/-- A ROM whose bytes are all `0xCE`. -/
def fixRomCE : Nat → Nat := fun _ => 0xCE

/-! ## Helper lemmas about the dictionary embedding -/

theorem dinsert_dinsert_same (bs : Blocks) (k : Int) (v w : BlockInfo) :
    dinsert (dinsert bs k v) k w = dinsert bs k w := by
  simp [dinsert, List.filter_append, List.filter_filter]

theorem dlookup_dinsert_self (bs : Blocks) (k : Int) (v : BlockInfo) :
    dlookup (dinsert bs k v) k = some v := by
  unfold dlookup dinsert
  rw [List.find?_append]
  have h1 : (bs.filter (fun p => p.1 != k)).find? (fun p => p.1 == k) = none := by
    rw [List.find?_eq_none]
    intro p hp
    have := (List.mem_filter.mp hp).2
    simpa using this
  simp [h1]

/-! ## C10: hints are keyed by start address; later hints overwrite earlier -/

/-- C10: region hints are keyed by their start address: a second `add_block`
call with the same address completely overwrites the first (only the last
kind and length survive), and a hint at the bank's base address replaces
the default whole-bank code region installed by `Bank.__init__`. -/
theorem add_block_same_address_overwrites :
    (∀ (b : RegionBank) (a : Int) (t1 t2 : BlockType) (l1 l2 : Int),
       add_block (add_block b a t1 l1) a t2 l2 = add_block b a t2 l2) ∧
    (∀ (n : Nat) (t : BlockType) (l : Int),
       dlookup (mkBank n).blocks (mkBank n).memory_base_address = some ⟨.code, 0x4000⟩ ∧
       dlookup (add_block (mkBank n) (mkBank n).memory_base_address t l).blocks
         (mkBank n).memory_base_address = some ⟨t, l⟩) := by
  constructor
  · intro b a t1 t2 l1 l2
    unfold add_block
    by_cases h : a ≥ b.memory_base_address
    · simp [h, dinsert_dinsert_same]
    · simp [h]
  · intro n t l
    have hbase : (mkBank n).memory_base_address = if n = 0 then 0 else 0x4000 := by
      unfold mkBank add_block
      split <;> simp_all
    have hblocks : (mkBank n).blocks =
        [((if n = 0 then 0 else 0x4000 : Int), ⟨.code, 0x4000⟩)] := by
      unfold mkBank add_block
      split <;> simp_all [dinsert]
    constructor
    · rw [hbase, hblocks]
      simp [dlookup]
    · unfold add_block
      rw [if_pos le_rfl]
      simp [dlookup_dinsert_self]

/-! ## C4: add_region records a hint iff the address is at or above the base -/

/-- C4 (counterexample to the claim as stated): a hint whose address
`0x4000` lies outside bank 0's addressable window `[0, 0x4000)` is not
ignored — it is recorded, because `add_block` checks only the lower bound. -/
theorem add_block_out_of_window_recorded :
    dlookup (add_block (mkBank 0) 0x4000 .data 1).blocks 0x4000 = some ⟨.data, 1⟩ ∧
    ¬ ((0x4000 : Int) < (mkBank 0).memory_base_address + 0x4000) := by
  constructor
  · decide
  · decide

/-- C4 (amended): `add_block` records the hint if and only if the address is
at or above the bank's base address; an address below the base is silently
ignored, but an address at or past the end of the window is still recorded. -/
theorem add_block_lower_bound_only (b : RegionBank) (a : Int) (t : BlockType) (l : Int) :
    (b.memory_base_address ≤ a →
       (add_block b a t l).blocks = dinsert b.blocks a ⟨t, l⟩) ∧
    (a < b.memory_base_address → add_block b a t l = b) := by
  constructor
  · intro h
    unfold add_block
    rw [if_pos h]
  · intro h
    unfold add_block
    rw [if_neg (by omega)]

/-- C4 witness: the amended theorem applied at a concrete in-range hint and a
concrete below-base hint. -/
theorem add_block_lower_bound_only_witness :
    (add_block (mkBank 1) 0x4100 .data 4).blocks =
      dinsert (mkBank 1).blocks 0x4100 ⟨.data, 4⟩ ∧
    add_block (mkBank 1) 0x100 .data 4 = mkBank 1 :=
  ⟨(add_block_lower_bound_only (mkBank 1) 0x4100 .data 4).1 (by decide),
   (add_block_lower_bound_only (mkBank 1) 0x100 .data 4).2 (by decide)⟩

/-! ## C9: labels in [0x8000, 0xC000) are shared but never substituted -/

/-- C9: an explicit label at a RAM address (≥ 0x8000) is written into every
bank's label table, yet for an operand value in `[0x8000, 0xC000)` the
label bookkeeping step of the operand loop leaves the decoded state
untouched: the branch-target path requires the value to be below `0x8000`
and the explicit-label path requires it to be at least `0xC000`, and the
dispatch part of the loop (`operandDispatch`) never reads any label table,
so such operands keep their literal rendering. -/
theorem ram_window_labels_never_substituted :
    (∀ (banks : BankLabelMaps) (bank : Nat) (address : Int) (label : String),
       0x8000 ≤ address →
       ∀ b : Nat, add_symbol_label banks bank address label b address = some label) ∧
    (∀ (bank : BankEnv) (first_pass : Bool) (st : OpState) (v : Int),
       0x8000 ≤ v → v < 0xC000 →
       operandLabelCheck bank first_pass (some v) st = st) := by
  constructor
  · intro banks bank address label h b
    unfold add_symbol_label
    rw [if_pos h]
    simp
  · intro bank first_pass st v h1 h2
    unfold operandLabelCheck
    dsimp only
    rw [if_neg (by rintro ⟨-, hv⟩; omega), if_neg (by omega)]

/-- C9 witness: the theorem applied at the concrete RAM address `0x9000`. -/
theorem ram_window_labels_never_substituted_witness :
    add_symbol_label (fun _ _ => none) 0 0x9000 "wWork" 3 0x9000 = some "wWork" ∧
    operandLabelCheck fixBank0 false (some 0x9000) ⟨3, "jp", ["$9000"], false, []⟩ =
      ⟨3, "jp", ["$9000"], false, []⟩ :=
  ⟨ram_window_labels_never_substituted.1 (fun _ _ => none) 0 0x9000 "wWork"
      (by decide) 3,
   ram_window_labels_never_substituted.2 fixBank0 false ⟨3, "jp", ["$9000"], false, []⟩
      0x9000 (by decide) (by decide)⟩

/-! ## C3: labels for non-instruction-start addresses -/

/-- C3 (counterexample to the claim as stated): emission does produce a label
for an address that was never recorded as an instruction start — an
explicit label inside a data region is emitted by
`process_data_in_range` regardless of `disassembled_addresses`. -/
theorem label_emitted_for_non_instruction_start :
    process_data_in_range fixBankHeader fixRomCE 0x104 0x106 [] =
      ["HeaderLogo::", "    DB $ce, $ce"] ∧
    fixBankHeader.disassembled 0x104 = false := by
  constructor
  · rfl
  · rfl

/-- C3 (amended): label resolution for an instruction operand
(`get_label_for_instruction_operand`) returns no label at all — neither an
explicit nor a generated one — when the operand's address was not recorded
as an instruction start during discovery; explicit labels at data/text
addresses, however, are emitted without consulting that record. -/
theorem operand_label_requires_instruction_start (bank : BankEnv)
    (instruction_name : String) (address : Int)
    (h : bank.disassembled address = false) :
    get_label_for_instruction_operand bank instruction_name address = none := by
  unfold get_label_for_instruction_operand
  rw [if_pos h]

/-- C3 witness: the amended theorem at a concrete non-discovered address that
does carry an explicit label. -/
theorem operand_label_requires_instruction_start_witness :
    get_label_for_instruction_operand fixBankHeader "call" 0x104 = none :=
  operand_label_requires_instruction_start fixBankHeader "call" 0x104 (by decide)

/-! ## C2: relative branches whose target lies in a different bank -/

/-- C2 (counterexample to the claim as stated): a `jr` at `0x3FE0` in bank 0
whose target `0x4012` lies in bank 1 (a different, higher bank) is NOT
re-encoded as two literal data bytes — it stays a `jr` with a literal
relative operand (it merely receives no label). -/
theorem cross_bank_jr_not_encoded_as_data :
    disassemble_at_pc fixTablesJr fixBank0 fixRomJr false false 0x3FE0 0x4000 =
      some ⟨2, "jr", ["@+$32"], false, []⟩ ∧
    ((0x3FE0 : Int) + 2 + to_signed (fixRomJr 0x3FE1)).fdiv 0x4000 ≠
      (fixBank0.bank_number : Int) := by
  constructor
  · rfl
  · decide

/-- C2 (amended): when a relative branch's computed target lies in a
different bank, the operand never receives a label (the `value` local is
cleared, so neither recording nor substitution can happen); additionally,
when the target bank is LOWER than the current bank the instruction is
re-encoded as two literal data bytes and the operand loop breaks, while a
target in a HIGHER bank keeps the decoded form with the literal signed
relative operand. -/
theorem relative_branch_cross_bank (bank : BankEnv) (rom : Nat → Nat) (pc opcode : Nat)
    (first_pass : Bool) (st : OpState)
    (hne : ((pc : Int) + 2 + to_signed (rom (pc + 1))).fdiv 0x4000 ≠
      (bank.bank_number : Int)) :
    (((pc : Int) + 2 + to_signed (rom (pc + 1))).fdiv 0x4000 < (bank.bank_number : Int) →
       opStep bank rom pc opcode first_pass "pc+r8" st =
         ({ st with length := st.length + 1, instruction_name := "DB",
                    operand_values := [hex_byte opcode, hex_byte (rom (pc + 1))] }, true)) ∧
    ((bank.bank_number : Int) < ((pc : Int) + 2 + to_signed (rom (pc + 1))).fdiv 0x4000 →
       opStep bank rom pc opcode first_pass "pc+r8" st =
         ({ st with length := st.length + 1,
                    operand_values := st.operand_values ++
                      [if (pc : Int) + 2 + to_signed (rom (pc + 1)) - (pc : Int) ≥ 0 then
                         "@+" ++ hex_byte
                           ((pc : Int) + 2 + to_signed (rom (pc + 1)) - (pc : Int)).toNat
                       else
                         "@-" ++ hex_byte
                           (((pc : Int) + 2 + to_signed (rom (pc + 1)) - (pc : Int)) *
                             (-1)).toNat] },
          false)) := by
  have hsym : (bank.bank_number : Int) ≠
      ((pc : Int) + 2 + to_signed (rom (pc + 1))).fdiv 0x4000 := Ne.symm hne
  constructor
  · intro hlt
    simp only [opStep, operandDispatch]
    simp [hlt, hsym]
  · intro hgt
    have hnlt : ¬ (((pc : Int) + 2 + to_signed (rom (pc + 1))).fdiv 0x4000 <
        (bank.bank_number : Int)) := by omega
    simp only [opStep, operandDispatch]
    simp [hnlt, hsym, operandLabelCheck]

/-! ## C5: high-page absolute memory references and the ld_long workaround -/

theorem str_startswith_lbracket (s t : String) : str_startswith ("[" ++ s ++ t) "[" = true := by
  simp [str_startswith, List.isPrefixOf]

theorem str_startswith_hex_word (v : Nat) : str_startswith (hex_word v) "[" = false := by
  simp [str_startswith, hex_word, List.isPrefixOf]

/-- The `[a16]` arm of the operand dispatch, as a single equation. -/
theorem operandDispatch_a16ref (bn : Nat) (rom : Nat → Nat) (pc opcode : Nat) (st : OpState) :
    operandDispatch bn rom pc opcode "[a16]" st =
      (if rom (pc + 1) + rom (pc + 2) * 256 ≥ 0xFF00 ∧ (opcode = 0xEA ∨ opcode = 0xFA) then
        { st with length := st.length + 2, instruction_name := "ld_long", has_ld_long := true,
                  operand_values := st.operand_values ++
                    [hex_word (rom (pc + 1) + rom (pc + 2) * 256)] }
       else
        { st with length := st.length + 2,
                  operand_values := st.operand_values ++
                    ["[" ++ hex_word (rom (pc + 1) + rom (pc + 2) * 256) ++ "]"] },
       some ((rom (pc + 1) + rom (pc + 2) * 256 : Nat) : Int), false) := by
  unfold operandDispatch
  rw [if_neg (by decide), if_pos rfl]
  by_cases hc : rom (pc + 1) + rom (pc + 2) * 256 ≥ 0xFF00 ∧ (opcode = 0xEA ∨ opcode = 0xFA)
  · rw [if_pos hc, if_pos hc]
    simp [List.dropLast_concat]
  · rw [if_neg hc, if_neg hc]

/-- The trailing label bookkeeping for a non-branch mnemonic, as a single
equation: only the explicit-label path at `0xC000` and above can fire. -/
theorem operandLabelCheck_not_branch (bank : BankEnv) (first_pass : Bool) (st : OpState)
    (v : Int)
    (hname : ¬ (st.instruction_name = "jr" ∨ st.instruction_name = "jp" ∨
      st.instruction_name = "call")) :
    operandLabelCheck bank first_pass (some v) st =
      (if 0xC000 ≤ v then
        match bank.labelled v with
        | some label =>
          { st with operand_values := st.operand_values.dropLast ++
              [if str_startswith (st.operand_values.getLastD "") "[" then "[" ++ label ++ "]"
               else label] }
        | none => st
       else st) := by
  unfold operandLabelCheck
  dsimp only
  rw [if_neg (by rintro ⟨h1, -⟩; exact hname h1)]

/-- C5 (counterexample to the claim as stated): `ld [$ff40],a` (opcode
`0xEA`, value `0xFF40 ≥ 0xFF00`) in a bank that carries an explicit label
at `0xFF40` is emitted as `ld_long` with the LABEL substituted for the
operand, not with the bare address, because the explicit-label
substitution for values ≥ 0xC000 still applies after the re-tag. -/
theorem high_page_store_emits_label_not_bare_address :
    disassemble_at_pc fixTablesEA fixBankHigh fixRomEA false false 0 100 =
      some ⟨3, "ld_long", ["hLCDC", "a"], true, []⟩ ∧
    fixRomEA 1 + fixRomEA 2 * 256 = 0xFF40 ∧
    ("hLCDC" : String) ≠ hex_word 0xFF40 := by
  refine ⟨rfl, rfl, ?_⟩
  decide

/-- C5 (amended): for a decode of an absolute 16-bit memory-reference
operand `[a16]` with value `v`: if `v ≥ 0xFF00` and the opcode is `0xEA`
or `0xFA`, the instruction is re-tagged to the `ld_long` directive, the
shared "workaround used" flag is set, and the operand is rendered without
brackets — as the bare address, or as the explicit label for `v` when one
exists; for any other opcode or `v < 0xFF00` (and a non-branch mnemonic)
the plain bracketed reference form is kept (with the label substituted
inside the brackets when `v ≥ 0xC000` has one) and the flag is not
touched. -/
theorem abs_memref_high_page (bank : BankEnv) (rom : Nat → Nat) (pc opcode : Nat)
    (first_pass : Bool) (st : OpState) :
    ((rom (pc + 1) + rom (pc + 2) * 256 ≥ 0xFF00 ∧ (opcode = 0xEA ∨ opcode = 0xFA)) →
       opStep bank rom pc opcode first_pass "[a16]" st =
         ({ st with length := st.length + 2,
                    instruction_name := "ld_long",
                    has_ld_long := true,
                    operand_values := st.operand_values ++
                      [match bank.labelled ((rom (pc + 1) + rom (pc + 2) * 256 : Nat) : Int) with
                       | some label => label
                       | none => hex_word (rom (pc + 1) + rom (pc + 2) * 256)] }, false)) ∧
    (¬ (rom (pc + 1) + rom (pc + 2) * 256 ≥ 0xFF00 ∧ (opcode = 0xEA ∨ opcode = 0xFA)) →
     ¬ (st.instruction_name = "jr" ∨ st.instruction_name = "jp" ∨
        st.instruction_name = "call") →
       opStep bank rom pc opcode first_pass "[a16]" st =
         ({ st with length := st.length + 2,
                    operand_values := st.operand_values ++
                      [if 0xC000 ≤ ((rom (pc + 1) + rom (pc + 2) * 256 : Nat) : Int) then
                         match bank.labelled ((rom (pc + 1) + rom (pc + 2) * 256 : Nat) : Int) with
                         | some label => "[" ++ label ++ "]"
                         | none => "[" ++ hex_word (rom (pc + 1) + rom (pc + 2) * 256) ++ "]"
                       else "[" ++ hex_word (rom (pc + 1) + rom (pc + 2) * 256) ++ "]"] },
          false)) := by
  constructor
  · rintro ⟨hv, hop⟩
    have hvc : (0xC000 : Int) ≤ ((rom (pc + 1) + rom (pc + 2) * 256 : Nat) : Int) := by
      exact_mod_cast (show (0xC000 : Nat) ≤ rom (pc + 1) + rom (pc + 2) * 256 by omega)
    unfold opStep
    rw [operandDispatch_a16ref]
    dsimp only
    rw [if_pos (And.intro hv hop)]
    rw [operandLabelCheck_not_branch _ _ _ _ (by simp)]
    rw [if_pos hvc]
    rcases h : bank.labelled ((rom (pc + 1) + rom (pc + 2) * 256 : Nat) : Int) with _ | label
    · simp [h]
    · simp [h, List.dropLast_concat, List.getLastD_concat, str_startswith_hex_word]
  · intro hno hname
    unfold opStep
    rw [operandDispatch_a16ref]
    dsimp only
    rw [if_neg hno]
    rw [operandLabelCheck_not_branch _ _ _ _ (by simpa using hname)]
    by_cases hc : (0xC000 : Int) ≤ ((rom (pc + 1) + rom (pc + 2) * 256 : Nat) : Int)
    · rw [if_pos hc, if_pos hc]
      rcases h : bank.labelled ((rom (pc + 1) + rom (pc + 2) * 256 : Nat) : Int) with _ | label
      · simp [h]
      · simp [h, List.dropLast_concat, List.getLastD_concat, str_startswith_lbracket]
    · rw [if_neg hc, if_neg hc]
      simp

/-- C5 witness: the amended theorem at a concrete `ld [$ff40],a` in a bank
without labels (bare address) and at a concrete `ld [$1234],a`-shaped
low value (bracketed form, flag untouched). -/
theorem abs_memref_high_page_witness :
    opStep fixBank0 fixRomEA 0 0xEA false "[a16]" ⟨1, "ld", [], false, []⟩ =
      (⟨3, "ld_long", ["$ff40"], true, []⟩, false) ∧
    opStep fixBank0 (fun _ => 0x12) 0 0xEA false "[a16]" ⟨1, "ld", [], false, []⟩ =
      (⟨3, "ld", ["[$1212]"], false, []⟩, false) :=
  ⟨(abs_memref_high_page fixBank0 fixRomEA 0 0xEA false ⟨1, "ld", [], false, []⟩).1
      (by decide),
   (abs_memref_high_page fixBank0 (fun _ => 0x12) 0 0xEA false ⟨1, "ld", [], false, []⟩).2
      (by decide) (by decide)⟩

/-! ## C6: the stop/halt following-byte quirk -/

theorem hex_byte_ne_tag (v : Nat) :
    hex_byte v ≠ "a16" ∧ hex_byte v ≠ "[a16]" ∧ hex_byte v ≠ "[$ff00+a8]" ∧
    hex_byte v ≠ "d8" ∧ hex_byte v ≠ "d16" ∧ hex_byte v ≠ "r8" ∧
    hex_byte v ≠ "pc+r8" ∧ hex_byte v ≠ "sp+r8" := by
  refine ⟨?_, ?_, ?_, ?_, ?_, ?_, ?_, ?_⟩ <;>
    · intro h
      have h2 := congrArg String.data h
      simp [hex_byte] at h2

/-- A literal hex-byte string falls through to the pass-through arm of the
operand dispatch. -/
theorem operandDispatch_hex_byte (bn : Nat) (rom : Nat → Nat) (pc opcode v : Nat)
    (st : OpState) :
    operandDispatch bn rom pc opcode (hex_byte v) st =
      ({ st with operand_values := st.operand_values ++ [hex_byte v] }, none, false) := by
  obtain ⟨h1, h2, h3, h4, h5, h6, h7, h8⟩ := hex_byte_ne_tag v
  unfold operandDispatch
  rw [if_neg h1, if_neg h2, if_neg h3, if_neg h4, if_neg h5, if_neg h6, if_neg h7, if_neg h8]

/-- C6 (counterexample to the claim as stated): a `stop` whose following
byte IS `0x00` but which sits on the last byte of its region decodes to a
single literal data byte of length 1, not to a 2-byte instruction,
because the region-boundary re-encoding runs after the quirk. -/
theorem stop_before_region_end_consumes_one :
    disassemble_at_pc fixTablesStop fixBank0 fixRomStop false false 0 1 =
      some ⟨1, "DB", ["$10"], false, []⟩ ∧
    fixRomStop 1 = 0 := by
  exact ⟨rfl, rfl⟩

/-- C6 (amended): for a decode of a `stop`/`halt` opcode (a non-CB opcode
whose table entry has no length-consuming operands): if the following
byte is `0x00` and the 2-byte form fits inside the region, the decoded
instruction consumes 2 bytes; if the following byte is anything other
than `0x00`, the opcode alone is re-classified as a single literal data
byte of length 1. -/
theorem stop_halt_following_byte (tbl : Tables) (bank : BankEnv) (rom : Nat → Nat)
    (first_pass ld_long_0 : Bool) (pc end_address : Nat) (nm : String)
    (htbl : tbl.main (rom pc) = some (nm, []))
    (hnm : nm = "stop" ∨ nm = "halt") (hcb : rom pc ≠ 0xCB) :
    (rom (pc + 1) = 0 → pc + 2 ≤ end_address →
       disassemble_at_pc tbl bank rom first_pass ld_long_0 pc end_address =
         some ⟨2, nm, [], ld_long_0, []⟩) ∧
    (rom (pc + 1) ≠ 0 → pc < end_address →
       disassemble_at_pc tbl bank rom first_pass ld_long_0 pc end_address =
         some ⟨1, "DB", [hex_byte (rom pc)], ld_long_0, []⟩) := by
  constructor
  · intro h0 hfit
    unfold disassemble_at_pc decodeCore
    dsimp only
    rw [htbl]
    dsimp only
    rw [if_neg hcb]
    dsimp only [Option.map]
    rw [if_pos hnm, if_pos h0]
    dsimp only [opLoop, Option.map]
    split
    · next h => exact absurd h (by omega)
    · rfl
  · intro h0 hpc
    unfold disassemble_at_pc decodeCore
    dsimp only
    rw [htbl]
    dsimp only
    rw [if_neg hcb]
    dsimp only [Option.map]
    rw [if_pos hnm, if_neg h0]
    dsimp only [opLoop]
    unfold opStep
    rw [operandDispatch_hex_byte]
    simp only [opLoop, operandLabelCheck, Option.map, Bool.false_eq_true, if_false,
      List.nil_append]
    split
    · next h => exact absurd h (by omega)
    · rfl

/-- C6 witness: the amended theorem at a concrete `stop` followed by `0x00`
inside a large region, and at a concrete `stop` followed by `0x34`. -/
theorem stop_halt_following_byte_witness :
    disassemble_at_pc fixTablesStop fixBank0 fixRomStop false false 0 0x4000 =
      some ⟨2, "stop", [], false, []⟩ ∧
    disassemble_at_pc fixTablesStop fixBank0 (fun a => if a = 0 then 0x10 else 0x34)
        false false 0 0x4000 =
      some ⟨1, "DB", ["$10"], false, []⟩ :=
  ⟨(stop_halt_following_byte fixTablesStop fixBank0 fixRomStop false false 0 0x4000
      "stop" (by decide) (Or.inl rfl) (by decide)).1 rfl (by decide),
   (stop_halt_following_byte fixTablesStop fixBank0 (fun a => if a = 0 then 0x10 else 0x34)
      false false 0 0x4000
      "stop" (by decide) (Or.inl rfl) (by decide)).2 (by decide) (by decide)⟩

/-- C2 witness: the amended theorem at a concrete forward cross-bank `jr`
(bank 0 to bank 1: stays a `jr` with a literal relative operand) and at a
concrete backward cross-bank `jr` (bank 1 to bank 0: re-encoded as two
literal data bytes). -/
theorem relative_branch_cross_bank_witness :
    opStep fixBank0 fixRomJr 0x3FE0 0x18 false "pc+r8" ⟨1, "jr", [], false, []⟩ =
      (⟨2, "jr", ["@+$32"], false, []⟩, false) ∧
    opStep fixBank1 fixRomJrBack 0x4000 0x18 false "pc+r8" ⟨1, "jr", [], false, []⟩ =
      (⟨2, "DB", ["$18", "$80"], false, []⟩, true) :=
  ⟨(relative_branch_cross_bank fixBank0 fixRomJr 0x3FE0 0x18 false
      ⟨1, "jr", [], false, []⟩ (by decide)).2 (by decide),
   (relative_branch_cross_bank fixBank1 fixRomJrBack 0x4000 0x18 false
      ⟨1, "jr", [], false, []⟩ (by decide)).1 (by decide)⟩

/-! ## C7: instructions never span past the region end -/

theorem operandLabelCheck_length (bank : BankEnv) (first_pass : Bool) (v : Option Int)
    (st : OpState) : (operandLabelCheck bank first_pass v st).length = st.length := by
  unfold operandLabelCheck
  rcases v with _ | x
  · rfl
  · dsimp only
    repeat' first
      | rfl
      | split

theorem operandDispatch_length (bn : Nat) (rom : Nat → Nat) (pc opcode : Nat)
    (operand : String) (st : OpState) :
    st.length ≤ (operandDispatch bn rom pc opcode operand st).1.length := by
  unfold operandDispatch
  by_cases h1 : operand = "a16"
  · rw [if_pos h1]; dsimp only; omega
  rw [if_neg h1]
  by_cases h2 : operand = "[a16]"
  · rw [if_pos h2]; dsimp only; split_ifs <;> (dsimp only; omega)
  rw [if_neg h2]
  by_cases h3 : operand = "[$ff00+a8]"
  · rw [if_pos h3]; dsimp only
    rcases hardware_labels (0xFF00 + rom (pc + 1)) with _ | l <;> (dsimp only; omega)
  rw [if_neg h3]
  by_cases h4 : operand = "d8"
  · rw [if_pos h4]; dsimp only; omega
  rw [if_neg h4]
  by_cases h5 : operand = "d16"
  · rw [if_pos h5]; dsimp only; omega
  rw [if_neg h5]
  by_cases h6 : operand = "r8"
  · rw [if_pos h6]; dsimp only; omega
  rw [if_neg h6]
  by_cases h7 : operand = "pc+r8"
  · rw [if_pos h7]; dsimp only; split_ifs <;> (dsimp only; omega)
  rw [if_neg h7]
  by_cases h8 : operand = "sp+r8"
  · rw [if_pos h8]; dsimp only; omega
  rw [if_neg h8]

theorem opStep_length (bank : BankEnv) (rom : Nat → Nat) (pc opcode : Nat)
    (first_pass : Bool) (operand : String) (st : OpState) :
    st.length ≤ (opStep bank rom pc opcode first_pass operand st).1.length := by
  unfold opStep
  dsimp only
  split
  · exact operandDispatch_length bank.bank_number rom pc opcode operand st
  · rw [operandLabelCheck_length]
    exact operandDispatch_length bank.bank_number rom pc opcode operand st

theorem opLoop_length (bank : BankEnv) (rom : Nat → Nat) (pc opcode : Nat)
    (first_pass : Bool) (operands : List String) (st : OpState) :
    st.length ≤ (opLoop bank rom pc opcode first_pass operands st).length := by
  induction operands generalizing st with
  | nil => exact le_rfl
  | cons operand rest ih =>
    unfold opLoop
    dsimp only
    split
    · exact opStep_length bank rom pc opcode first_pass operand st
    · exact le_trans (opStep_length bank rom pc opcode first_pass operand st) (ih _)

/-- Every successful decode consumes at least one byte. -/
theorem decodeCore_length_pos (tbl : Tables) (bank : BankEnv) (rom : Nat → Nat)
    (first_pass ld_long_0 : Bool) (pc : Nat) (st : OpState)
    (h : decodeCore tbl bank rom first_pass ld_long_0 pc = some st) :
    1 ≤ st.length := by
  unfold decodeCore at h
  dsimp only at h
  rcases htm : tbl.main (rom pc) with _ | v
  · rw [htm] at h; simp at h
  rw [htm] at h
  dsimp only at h
  by_cases hcb : rom pc = 0xCB
  · rw [if_pos hcb] at h
    rcases hc : tbl.cb (rom (pc + 1)) with _ | w
    · rw [hc] at h; simp at h
    rw [hc] at h
    dsimp only [Option.map] at h
    rw [Option.some.injEq] at h
    rw [← h]
    refine le_trans ?_ (opLoop_length _ _ _ _ _ _ _)
    dsimp only
    split_ifs <;> simp
  · rw [if_neg hcb] at h
    dsimp only [Option.map] at h
    rw [Option.some.injEq] at h
    rw [← h]
    refine le_trans ?_ (opLoop_length _ _ _ _ _ _ _)
    dsimp only
    split_ifs <;> simp

/-- C7: when the decoded length would extend past `end_address`
(`pc + length > end_address`, i.e. the source's `pc + length - 1 >=
end_address` given `length ≥ 1`), the decoded form is abandoned and the
opcode byte alone is emitted as raw data of length 1; an instruction that
ends exactly at `end_address` (or earlier) is kept unchanged. -/
theorem instruction_region_boundary (tbl : Tables) (bank : BankEnv) (rom : Nat → Nat)
    (first_pass ld_long_0 : Bool) (pc end_address : Nat) (st : OpState)
    (hcore : decodeCore tbl bank rom first_pass ld_long_0 pc = some st) :
    (end_address < pc + st.length →
       disassemble_at_pc tbl bank rom first_pass ld_long_0 pc end_address =
         some { st with length := 1, instruction_name := "DB",
                        operand_values := [hex_byte (rom pc)] }) ∧
    (pc + st.length ≤ end_address →
       disassemble_at_pc tbl bank rom first_pass ld_long_0 pc end_address = some st) := by
  have hpos := decodeCore_length_pos tbl bank rom first_pass ld_long_0 pc st hcore
  unfold disassemble_at_pc
  rw [hcore]
  dsimp only [Option.map]
  constructor
  · intro h
    rw [if_pos (by omega)]
  · intro h
    rw [if_neg (by omega)]

/-- C7 witness: a 1-byte `nop` kept when it ends exactly at the region end,
and the same decode truncated to a literal data byte when the region ends
at `pc`. -/
theorem instruction_region_boundary_witness :
    disassemble_at_pc fixTablesStop fixBank0 (fun _ => 0) false false 0 1 =
      some ⟨1, "nop", [], false, []⟩ ∧
    disassemble_at_pc fixTablesStop fixBank0 (fun _ => 0) false false 0 0 =
      some ⟨1, "DB", ["$00"], false, []⟩ :=
  ⟨(instruction_region_boundary fixTablesStop fixBank0 (fun _ => 0) false false 0 1
      ⟨1, "nop", [], false, []⟩ (by decide)).2 (by decide),
   (instruction_region_boundary fixTablesStop fixBank0 (fun _ => 0) false false 0 0
      ⟨1, "nop", [], false, []⟩ (by decide)).1 (by decide)⟩

/-! ## C8: data regions emit at most 16 values per line and flush at labels -/

theorem dataLabelStep_values (bank : BankEnv) (a : Nat) (values out : List String) :
    (dataLabelStep bank a values out).1 = values ∨
    (dataLabelStep bank a values out).1 = [] := by
  unfold dataLabelStep
  dsimp only
  split
  · split
    · right; rfl
    · left; rfl
  · left; rfl

theorem dataLabelStep_out_ok (bank : BankEnv) (a : Nat) (values out : List String)
    (hv : values.length ≤ 16)
    (hout : ∀ l ∈ out, LineOK bank l) :
    ∀ l ∈ (dataLabelStep bank a values out).2, LineOK bank l := by
  unfold dataLabelStep
  dsimp only
  split
  · next hl =>
    intro l hml
    unfold append_labels_to_output append_empty_line_if_none_already at hml
    dsimp only at hml
    rcases hw : (if values ≠ [] then
        (([] : List String), out ++ [format_data values]) else (values, out)) with ⟨v2, o2⟩
    rw [hw] at hml
    have ho2 : ∀ l ∈ o2, LineOK bank l := by
      intro x hx
      by_cases hvv : values ≠ []
      · rw [if_pos hvv] at hw
        cases hw
        rcases List.mem_append.mp hx with h | h
        · exact hout x h
        · rcases List.mem_singleton.mp h with rfl
          exact Or.inr (Or.inr ⟨values, hv, hvv, rfl⟩)
      · rw [if_neg hvv] at hw
        cases hw
        exact hout x hx
    rcases List.mem_append.mp hml with h | h
    · by_cases he : o2.length > 0 ∧ o2.getLastD "" ≠ ""
      · rw [if_pos he] at h
        rcases List.mem_append.mp h with h' | h'
        · exact ho2 l h'
        · rcases List.mem_singleton.mp h' with rfl
          exact Or.inl rfl
      · rw [if_neg he] at h
        exact ho2 l h
    · rcases List.mem_singleton.mp h with rfl
      exact Or.inr (Or.inl ⟨((rom_address_to_mem_address a : Nat) : Int), hl, rfl⟩)
  · exact hout

/-- The loop invariant of `process_data_in_range`: fewer than 16 values are
buffered at each iteration start, and every emitted line is an empty
separator, a label block, or a data line of at most 16 values. -/
theorem dataLoop_lines_ok (bank : BankEnv) (rom : Nat → Nat) :
    ∀ (addrs : List Nat) (values out : List String),
      values.length ≤ 15 → (∀ l ∈ out, LineOK bank l) →
      ∀ l ∈ dataLoop bank rom addrs values out, LineOK bank l := by
  intro addrs
  induction addrs with
  | nil =>
    intro values out hv hout l hl
    exact hout l hl
  | cons a rest ih =>
    intro values out hv hout
    unfold dataLoop
    dsimp only
    have hp1 := dataLabelStep_values bank a values out
    have hp2 := dataLabelStep_out_ok bank a values out (by omega) hout
    have hlen : ((dataLabelStep bank a values out).1 ++ [hex_byte (rom a)]).length ≤ 16 := by
      rcases hp1 with h | h <;> simp [h] <;> omega
    split
    · apply ih
      · simp
      · intro l hl
        rcases List.mem_append.mp hl with h | h
        · exact hp2 l h
        · rcases List.mem_singleton.mp h with rfl
          exact Or.inr (Or.inr ⟨_, hlen, by simp, rfl⟩)
    · next hcond =>
      apply ih
      · push_neg at hcond
        omega
      · exact hp2

/-- C8: (1) every line emitted by `process_data_in_range` is an empty
separator, a label block, or a literal-byte line with at most 16 values;
(2) whenever a label attaches to an address inside the region and values
have accumulated, they are flushed to their own line before the label —
even when fewer than 16 have accumulated. -/
theorem data_region_line_discipline :
    (∀ (bank : BankEnv) (rom : Nat → Nat) (start_address end_address : Nat)
       (out : List String),
       (∀ l ∈ out, LineOK bank l) →
       ∀ l ∈ process_data_in_range bank rom start_address end_address out, LineOK bank l) ∧
    (∀ (bank : BankEnv) (a : Nat) (values out : List String),
       get_labels_for_non_code_address bank
         ((rom_address_to_mem_address a : Nat) : Int) ≠ [] →
       values ≠ [] →
       dataLabelStep bank a values out =
         ([], append_labels_to_output (out ++ [format_data values])
            (get_labels_for_non_code_address bank
              ((rom_address_to_mem_address a : Nat) : Int)))) := by
  constructor
  · intro bank rom s e out hout
    exact dataLoop_lines_ok bank rom _ [] out (by simp) hout
  · intro bank a values out hl hv
    unfold dataLabelStep
    dsimp only
    rw [if_pos hl, if_pos hv]

/-- C8 witness: a concrete 2-byte data region groups into one literal line,
and a concrete label flush puts the single accumulated value on its own
line before the label block. -/
theorem data_region_line_discipline_witness :
    LineOK fixBank0 "    DB $00, $00" ∧
    dataLabelStep fixBankHeader 0x104 ["$ce"] [] =
      ([], ["    DB $ce", "", "HeaderLogo::"]) :=
  ⟨data_region_line_discipline.1 fixBank0 (fun _ => 0) 0 2 [] (by simp)
      "    DB $00, $00" (by decide),
   data_region_line_discipline.2 fixBankHeader 0x104 ["$ce"] [] (by decide) (by decide)⟩

/-! ## C1: the resolved region map partitions the bank window -/

/-- C1 (counterexample to the claim as stated): a recorded hint is allowed
to overshoot the window end (`add_block` has no upper clamp), and then the
resolved region list does not cover `[base, base+0x4000)` exactly once: a
data hint at `0x3000` of length `0x2000` yields a data region reaching
`0x5000` and a final code region of negative length. -/
theorem overshooting_hint_breaks_partition :
    isChainB (mkBank 0).memory_base_address ((mkBank 0).memory_base_address + 0x4000)
      (regionList (resolve_blocks (applyHints 0 [⟨0x3000, .data, 0x2000⟩]))) = false := by
  decide

theorem filter_ne_of_not_mem (bs : Blocks) (k : Int) (h : k ∉ keysOf bs) :
    bs.filter (fun p => p.1 != k) = bs := by
  induction bs with
  | nil => rfl
  | cons p rest ih =>
    have hk : p.1 ≠ k := by
      intro hkk
      exact h (by simp [keysOf, hkk])
    have hrest : k ∉ keysOf rest := by
      intro hm
      exact h (by simp [keysOf] at hm ⊢; exact Or.inr hm)
    simp [List.filter_cons, hk, ih hrest]

theorem dinsert_eq_append (bs : Blocks) (k : Int) (v : BlockInfo) (h : k ∉ keysOf bs) :
    dinsert bs k v = bs ++ [(k, v)] := by
  unfold dinsert
  rw [filter_ne_of_not_mem bs k h]

theorem mem_keysOf_dinsert (bs : Blocks) (k a : Int) (v : BlockInfo) :
    a ∈ keysOf (dinsert bs k v) ↔ a = k ∨ a ∈ keysOf bs := by
  unfold dinsert keysOf
  simp only [List.map_append, List.mem_append, List.mem_map, List.mem_filter]
  constructor
  · rintro (⟨p, ⟨hp, -⟩, rfl⟩ | h)
    · exact Or.inr ⟨p, hp, rfl⟩
    · simp at h
      exact Or.inl h.symm
  · rintro (rfl | ⟨p, hp, rfl⟩)
    · right; simp
    · by_cases hk : p.1 = k
      · right; simp [hk]
      · left
        exact ⟨p, ⟨hp, by simp [hk]⟩, rfl⟩

theorem nodup_keysOf_dinsert (bs : Blocks) (k : Int) (v : BlockInfo)
    (h : (keysOf bs).Nodup) : (keysOf (dinsert bs k v)).Nodup := by
  unfold dinsert keysOf
  rw [List.map_append, List.nodup_append]
  refine ⟨?_, by simp, ?_⟩
  · exact h.sublist ((List.filter_sublist bs).map _)
  · intro a ha hb
    simp only [List.map_cons, List.map_nil, List.mem_singleton] at hb
    subst hb
    simp only [List.mem_map, List.mem_filter] at ha
    obtain ⟨p, ⟨-, hne⟩, hpk⟩ := ha
    rw [hpk] at hne
    simp at hne

theorem mem_dinsert (bs : Blocks) (k : Int) (v : BlockInfo) (p : Int × BlockInfo)
    (h : p ∈ dinsert bs k v) : p = (k, v) ∨ p ∈ bs := by
  unfold dinsert at h
  rcases List.mem_append.mp h with h | h
  · exact Or.inr (List.mem_filter.mp h).1
  · exact Or.inl (List.mem_singleton.mp h)

theorem dlookup_of_mem_keys (bs : Blocks) (k : Int) (h : k ∈ keysOf bs) :
    ∃ bi, dlookup bs k = some bi ∧ (k, bi) ∈ bs := by
  induction bs with
  | nil => simp [keysOf] at h
  | cons p rest ih =>
    by_cases hk : p.1 = k
    · refine ⟨p.2, ?_, ?_⟩
      · unfold dlookup
        rw [List.find?_cons_of_pos _ (by simp [hk])]
        rfl
      · have hp : (k, p.2) = p := by rw [← hk]
        rw [hp]
        exact List.mem_cons_self _ _
    · have hm : k ∈ keysOf rest := by
        simp [keysOf] at h ⊢
        rcases h with h | h
        · exact absurd h.symm hk
        · exact h
      obtain ⟨bi, h1, h2⟩ := ih hm
      refine ⟨bi, ?_, List.mem_cons_of_mem _ h2⟩
      unfold dlookup at h1 ⊢
      rw [List.find?_cons_of_neg _ (by simp [hk])]
      exact h1

theorem insSorted_perm (a : Int) (l : List Int) :
    List.Perm (insSorted a l) (a :: l) := by
  induction l with
  | nil => exact List.Perm.refl _
  | cons y ys ih =>
    unfold insSorted
    split
    · exact List.Perm.refl _
    · exact List.Perm.trans (ih.cons y) (List.Perm.swap a y ys)

theorem sortInts_perm (l : List Int) : List.Perm (sortInts l) l := by
  induction l with
  | nil => exact List.Perm.refl _
  | cons x xs ih =>
    exact List.Perm.trans (insSorted_perm x (sortInts xs)) (ih.cons x)

theorem sorted_insSorted (a : Int) (l : List Int)
    (h : List.Pairwise (· ≤ ·) l) : List.Pairwise (· ≤ ·) (insSorted a l) := by
  induction l with
  | nil => simp [insSorted]
  | cons y ys ih =>
    unfold insSorted
    split
    · next hle =>
      exact List.Pairwise.cons
        (by
          intro b hb
          rcases List.mem_cons.mp hb with rfl | hb
          · exact hle
          · exact le_trans hle (List.rel_of_pairwise_cons h hb)) h
    · next hgt =>
      have hy : ∀ b ∈ insSorted a ys, y ≤ b := by
        intro b hb
        rcases List.mem_cons.mp ((insSorted_perm a ys).mem_iff.mp hb) with rfl | hb
        · omega
        · exact List.rel_of_pairwise_cons h hb
      exact List.Pairwise.cons hy (ih (List.Pairwise.of_cons h))

theorem sorted_sortInts (l : List Int) : List.Pairwise (· ≤ ·) (sortInts l) := by
  induction l with
  | nil => simp [sortInts]
  | cons x xs ih => exact sorted_insSorted x (sortInts xs) ih

theorem sortInts_eq_self (l : List Int) (h : List.Pairwise (· ≤ ·) l) :
    sortInts l = l := by
  induction l with
  | nil => rfl
  | cons x xs ih =>
    have hxs : sortInts xs = xs := ih (List.Pairwise.of_cons h)
    unfold sortInts
    rw [hxs]
    cases xs with
    | nil => rfl
    | cons y ys =>
      unfold insSorted
      rw [if_pos (List.rel_of_pairwise_cons h (List.mem_cons_self y ys))]

theorem pairwise_lt_of_le_nodup (l : List Int) (hs : List.Pairwise (· ≤ ·) l)
    (hn : l.Nodup) : List.Pairwise (· < ·) l := by
  induction l with
  | nil => exact List.Pairwise.nil
  | cons x xs ih =>
    refine List.Pairwise.cons ?_ (ih (List.Pairwise.of_cons hs) (List.Nodup.of_cons hn))
    intro b hb
    have h1 := List.rel_of_pairwise_cons hs hb
    have h2 : x ≠ b := by
      intro hx
      subst hx
      exact (List.nodup_cons.mp hn).1 hb
    omega

theorem sorted_head_min (x base : Int) (xs : List Int)
    (hs : List.Pairwise (· ≤ ·) (x :: xs)) (hmem : base ∈ x :: xs)
    (hlo : ∀ y ∈ x :: xs, base ≤ y) : x = base := by
  rcases List.mem_cons.mp hmem with rfl | hb
  · rfl
  · have h1 := List.rel_of_pairwise_cons hs hb
    have h2 := hlo x (List.mem_cons_self x xs)
    omega

theorem mkBank_spec (n : Nat) :
    (mkBank n).blocks = [((mkBank n).memory_base_address, ⟨.code, 0x4000⟩)] := by
  unfold mkBank add_block
  dsimp only
  rw [if_pos le_rfl]
  simp [dinsert]

theorem foldl_add_block_inv (base : Int) :
    ∀ (hints : List Hint) (b : RegionBank),
      b.memory_base_address = base →
      (keysOf b.blocks).Nodup →
      base ∈ keysOf b.blocks →
      (∀ p ∈ b.blocks, base ≤ p.1 ∧ 0 ≤ p.2.length ∧ p.1 + p.2.length ≤ base + 0x4000) →
      (∀ h ∈ hints, base ≤ h.address ∧ 0 ≤ h.length ∧ h.address + h.length ≤ base + 0x4000) →
      (hints.foldl (fun b h => add_block b h.address h.btype h.length) b).memory_base_address
          = base ∧
      (keysOf (hints.foldl (fun b h => add_block b h.address h.btype h.length) b).blocks).Nodup ∧
      base ∈ keysOf (hints.foldl (fun b h => add_block b h.address h.btype h.length) b).blocks ∧
      ∀ p ∈ (hints.foldl (fun b h => add_block b h.address h.btype h.length) b).blocks,
        base ≤ p.1 ∧ 0 ≤ p.2.length ∧ p.1 + p.2.length ≤ base + 0x4000 := by
  intro hints
  induction hints with
  | nil =>
    intro b h1 h2 h3 h4 _
    exact ⟨h1, h2, h3, h4⟩
  | cons h rest ih =>
    intro b h1 h2 h3 h4 h5
    rw [List.foldl_cons]
    apply ih
    · unfold add_block
      split <;> simp [h1]
    · unfold add_block
      split
      · exact nodup_keysOf_dinsert _ _ _ h2
      · exact h2
    · unfold add_block
      split
      · dsimp only
        rw [mem_keysOf_dinsert]
        exact Or.inr h3
      · exact h3
    · unfold add_block
      split
      · dsimp only
        intro p hp
        rcases mem_dinsert _ _ _ _ hp with rfl | hp
        · obtain ⟨ha1, ha2, ha3⟩ := h5 h (List.mem_cons_self h rest)
          exact ⟨ha1, ha2, ha3⟩
        · exact h4 p hp
      · exact h4
    · intro x hx
      exact h5 x (List.mem_cons_of_mem _ hx)

theorem isChainB_append (hi : Int) :
    ∀ (xs : List (Int × BlockInfo)) (lo mid : Int) (ys : List (Int × BlockInfo)),
      isChainB lo mid xs = true → isChainB mid hi ys = true →
      isChainB lo hi (xs ++ ys) = true := by
  intro xs
  induction xs with
  | nil =>
    intro lo mid ys h1 h2
    simp [isChainB] at h1
    rw [List.nil_append, h1]
    exact h2
  | cons p rest ih =>
    intro lo mid ys h1 h2
    rcases p with ⟨k, bi⟩
    simp only [isChainB, Bool.and_eq_true, beq_iff_eq, decide_eq_true_eq] at h1 ⊢
    obtain ⟨⟨ha, hb⟩, hc⟩ := h1
    exact ⟨⟨ha, hb⟩, ih _ _ _ hc h2⟩

theorem map_lookup_eq_self (d : BlockInfo) :
    ∀ (bs : Blocks), (keysOf bs).Nodup →
      (keysOf bs).map (fun k => (k, (dlookup bs k).getD d)) = bs := by
  intro bs
  induction bs with
  | nil => intro _; rfl
  | cons p rest ih =>
    intro hn
    have hpk : p.1 ∉ keysOf rest := (List.nodup_cons.mp (by exact hn)).1
    have hrest := (List.nodup_cons.mp (by exact hn)).2
    show (p.1 :: keysOf rest).map _ = p :: rest
    rw [List.map_cons]
    congr 1
    · unfold dlookup
      rw [List.find?_cons_of_pos _ (by simp)]
      exact Prod.mk.eta
    · have hmc : List.map (fun k => (k, (dlookup (p :: rest) k).getD d)) (keysOf rest)
          = List.map (fun k => (k, (dlookup rest k).getD d)) (keysOf rest) := by
        apply List.map_congr_left
        intro k hk
        have hne : ¬ (p.1 = k) := by
          intro hx
          rw [hx] at hpk
          exact hpk hk
        unfold dlookup
        rw [List.find?_cons_of_neg _ (by simp; intro hx; exact hne hx)]
      rw [hmc, ih hrest]

theorem dinsert_append_right (acc l : Blocks) (k : Int) (v : BlockInfo)
    (h : k ∉ keysOf acc) : dinsert (acc ++ l) k v = acc ++ dinsert l k v := by
  unfold dinsert
  rw [List.filter_append, filter_ne_of_not_mem acc k h, List.append_assoc]

theorem resolveLoop_spec (base : Int) (bs : Blocks) :
    ∀ (rest : List Int) (k : Int) (acc : Blocks),
      List.Pairwise (· < ·) (k :: rest) →
      (∀ k' ∈ k :: rest, ∃ bi, dlookup bs k' = some bi ∧ base ≤ k' ∧ 0 ≤ bi.length ∧
         k' + bi.length ≤ base + 0x4000) →
      (∀ a ∈ keysOf acc, a < k) →
      ∃ tl, resolveLoop base bs (k :: rest) acc = acc ++ tl ∧
        isChainB k (base + 0x4000) tl = true ∧
        (∀ a ∈ keysOf tl, k ≤ a) ∧
        List.Pairwise (· < ·) (keysOf tl) := by
  intro rest
  induction rest with
  | nil =>
    intro k acc hsort hlook hacc
    obtain ⟨bi, hbi, hge, hlen, hfit⟩ := hlook k (List.mem_cons_self _ _)
    have hknot : k ∉ keysOf acc := fun hm => absurd (hacc k hm) (lt_irrefl k)
    have henot : k + bi.length ∉ keysOf acc := fun hm => absurd (hacc _ hm) (by omega)
    unfold resolveLoop
    rw [hbi]
    dsimp only [Option.getD]
    by_cases hW : k + bi.length = base + 0x4000
    · rw [if_neg (not_not_intro hW)]
      rw [dinsert_eq_append _ _ _ hknot]
      refine ⟨_, rfl, ?_, ?_, ?_⟩
      · simp [isChainB]
        omega
      · intro a ha
        simp [keysOf] at ha
        omega
      · simp [keysOf]
    · rw [if_pos hW]
      rw [dinsert_eq_append _ _ _ hknot, dinsert_append_right _ _ _ _ henot]
      by_cases hz : k = k + bi.length
      · have hfil : dinsert [(k, (⟨bi.btype, k + bi.length - k⟩ : BlockInfo))]
            (k + bi.length) ⟨.code, base + 0x4000 - (k + bi.length)⟩ =
            [(k + bi.length, ⟨.code, base + 0x4000 - (k + bi.length)⟩)] := by
          unfold dinsert
          rw [List.filter_cons]
          simp [← hz]
        rw [hfil]
        refine ⟨_, rfl, ?_, ?_, ?_⟩
        · simp [isChainB]
          omega
        · intro a ha
          simp [keysOf] at ha
          omega
        · simp [keysOf]
      · have hfil : dinsert [(k, (⟨bi.btype, k + bi.length - k⟩ : BlockInfo))]
            (k + bi.length) ⟨.code, base + 0x4000 - (k + bi.length)⟩ =
            [(k, ⟨bi.btype, k + bi.length - k⟩),
             (k + bi.length, ⟨.code, base + 0x4000 - (k + bi.length)⟩)] := by
          unfold dinsert
          rw [List.filter_cons]
          simp [hz]
        rw [hfil]
        refine ⟨_, rfl, ?_, ?_, ?_⟩
        · simp [isChainB]
          omega
        · intro a ha
          simp [keysOf] at ha
          rcases ha with rfl | rfl <;> omega
        · simp [keysOf]
          omega
  | cons k' rest' ih =>
    intro k acc hsort hlook hacc
    obtain ⟨bi, hbi, hge, hlen, hfit⟩ := hlook k (List.mem_cons_self _ _)
    have hkk' : k < k' := List.rel_of_pairwise_cons hsort (List.mem_cons_self _ _)
    have hknot : k ∉ keysOf acc := fun hm => absurd (hacc k hm) (lt_irrefl k)
    unfold resolveLoop
    rw [hbi]
    dsimp only [Option.getD]
    set E : Int := if k' < k + bi.length then k' else k + bi.length with hE
    have hEk : k ≤ E := by
      rw [hE]; split <;> omega
    have hEk' : E ≤ k' := by
      rw [hE]; split <;> omega
    have henot : E ∉ keysOf acc := fun hm => absurd (hacc _ hm) (by omega)
    -- decompose the step into `acc ++ sl` for a short segment `sl`
    have hstep : ∃ sl : Blocks,
        (if E < k' then dinsert (dinsert acc k ⟨bi.btype, E - k⟩) E ⟨.code, k' - E⟩
         else dinsert acc k ⟨bi.btype, E - k⟩) = acc ++ sl ∧
        isChainB k k' sl = true ∧
        (∀ a ∈ keysOf sl, k ≤ a ∧ a < k') ∧
        List.Pairwise (· < ·) (keysOf sl) := by
      by_cases hElt : E < k'
      · rw [if_pos hElt]
        rw [dinsert_eq_append _ _ _ hknot, dinsert_append_right _ _ _ _ henot]
        by_cases hz : k = E
        · have hfil : dinsert [(k, (⟨bi.btype, E - k⟩ : BlockInfo))] E ⟨.code, k' - E⟩ =
              [(E, ⟨.code, k' - E⟩)] := by
            unfold dinsert
            rw [List.filter_cons]
            simp [← hz]
          rw [hfil]
          refine ⟨_, rfl, ?_, ?_, ?_⟩
          · simp [isChainB]
            omega
          · intro a ha
            simp [keysOf] at ha
            omega
          · simp [keysOf]
        · have hfil : dinsert [(k, (⟨bi.btype, E - k⟩ : BlockInfo))] E ⟨.code, k' - E⟩ =
              [(k, ⟨bi.btype, E - k⟩), (E, ⟨.code, k' - E⟩)] := by
            unfold dinsert
            rw [List.filter_cons]
            simp [hz]
          rw [hfil]
          refine ⟨_, rfl, ?_, ?_, ?_⟩
          · simp [isChainB]
            omega
          · intro a ha
            simp [keysOf] at ha
            rcases ha with rfl | rfl <;> omega
          · simp [keysOf]
            omega
      · rw [if_neg hElt]
        rw [dinsert_eq_append _ _ _ hknot]
        have hEeq : E = k' := by omega
        refine ⟨_, rfl, ?_, ?_, ?_⟩
        · simp [isChainB]
          omega
        · intro a ha
          simp [keysOf] at ha
          omega
        · simp [keysOf]
    obtain ⟨sl, hsl, hslchain, hslkeys, hslpw⟩ := hstep
    rw [hsl]
    have hih := ih k' (acc ++ sl) (List.Pairwise.of_cons hsort)
      (fun k'' hm => hlook k'' (List.mem_cons_of_mem _ hm))
      (by
        intro a ha
        unfold keysOf at ha
        rw [List.map_append] at ha
        rcases List.mem_append.mp ha with h | h
        · exact lt_trans (hacc a h) hkk'
        · exact (hslkeys a h).2)
    obtain ⟨tl', htl'eq, htl'chain, htl'ge, htl'pw⟩ := hih
    refine ⟨sl ++ tl', ?_, ?_, ?_, ?_⟩
    · rw [htl'eq, List.append_assoc]
    · exact isChainB_append _ _ _ _ _ hslchain htl'chain
    · intro a ha
      unfold keysOf at ha
      rw [List.map_append] at ha
      rcases List.mem_append.mp ha with h | h
      · exact (hslkeys a h).1
      · exact le_trans (le_of_lt hkk') (htl'ge a h)
    · unfold keysOf
      rw [List.map_append, List.pairwise_append]
      refine ⟨hslpw, htl'pw, ?_⟩
      intro a ha b hb
      exact lt_of_lt_of_le (hslkeys a ha).2 (htl'ge b hb)

/-- C1 (amended): for every bank, after `resolve_blocks` runs over recorded
hints that each lie inside the bank's window (`base ≤ address`,
`0 ≤ length`, `address + length ≤ base + 0x4000`), the resulting region
list is sorted by start address, the regions are pairwise non-overlapping,
and their union covers `[base, base + 0x4000)` exactly once per address
(`isChainB` on the sorted region list); hints reaching past the window end
break this postcondition. -/
theorem region_map_partition (n : Nat) (hints : List Hint)
    (hfit : ∀ h ∈ hints, (mkBank n).memory_base_address ≤ h.address ∧ 0 ≤ h.length ∧
       h.address + h.length ≤ (mkBank n).memory_base_address + 0x4000) :
    isChainB (mkBank n).memory_base_address ((mkBank n).memory_base_address + 0x4000)
      (regionList (resolve_blocks (applyHints n hints))) = true := by
  have hmk := mkBank_spec n
  have hinv := foldl_add_block_inv (mkBank n).memory_base_address hints (mkBank n) rfl
    (by rw [hmk]; simp [keysOf])
    (by rw [hmk]; simp [keysOf])
    (by
      rw [hmk]
      intro p hp
      rw [List.mem_singleton] at hp
      subst hp
      exact ⟨le_rfl, by norm_num, le_rfl⟩)
    hfit
  rw [show (hints.foldl (fun b h => add_block b h.address h.btype h.length) (mkBank n)) =
    applyHints n hints from rfl] at hinv
  obtain ⟨hB1, hB2, hB3, hB4⟩ := hinv
  have hperm := sortInts_perm (keysOf (applyHints n hints).blocks)
  have hsorted := sorted_sortInts (keysOf (applyHints n hints).blocks)
  have hnodup : (sortInts (keysOf (applyHints n hints).blocks)).Nodup :=
    hperm.nodup_iff.mpr hB2
  have hpw := pairwise_lt_of_le_nodup _ hsorted hnodup
  have hmem : (mkBank n).memory_base_address ∈
      sortInts (keysOf (applyHints n hints).blocks) := hperm.mem_iff.mpr hB3
  have hlomem : ∀ y ∈ sortInts (keysOf (applyHints n hints).blocks),
      (mkBank n).memory_base_address ≤ y := by
    intro y hy
    obtain ⟨bi, -, hmem'⟩ := dlookup_of_mem_keys _ _ (hperm.mem_iff.mp hy)
    exact (hB4 _ hmem').1
  have hlook : ∀ k' ∈ sortInts (keysOf (applyHints n hints).blocks),
      ∃ bi, dlookup (applyHints n hints).blocks k' = some bi ∧
        (mkBank n).memory_base_address ≤ k' ∧ 0 ≤ bi.length ∧
        k' + bi.length ≤ (mkBank n).memory_base_address + 0x4000 := by
    intro k' hk'
    obtain ⟨bi, hl, hm⟩ := dlookup_of_mem_keys _ _ (hperm.mem_iff.mp hk')
    obtain ⟨f1, f2, f3⟩ := hB4 _ hm
    exact ⟨bi, hl, f1, f2, f3⟩
  rcases hks : sortInts (keysOf (applyHints n hints).blocks) with _ | ⟨k0, ktl⟩
  · rw [hks] at hmem
    simp at hmem
  · rw [hks] at hsorted hpw hmem hlomem hlook
    have hk0 : k0 = (mkBank n).memory_base_address :=
      sorted_head_min k0 _ ktl hsorted hmem hlomem
    obtain ⟨tl, hres, hchain, hge, hpwtl⟩ :=
      resolveLoop_spec (mkBank n).memory_base_address (applyHints n hints).blocks ktl k0 []
        hpw hlook (by simp [keysOf])
    unfold resolve_blocks
    rw [hB1, hks, hres]
    unfold regionList
    dsimp only
    simp only [List.nil_append]
    have hpwle : List.Pairwise (· ≤ ·) (keysOf tl) := hpwtl.imp (fun h => le_of_lt h)
    have hnodtl : (keysOf tl).Nodup := hpwtl.imp (fun h => ne_of_lt h)
    rw [sortInts_eq_self _ hpwle, map_lookup_eq_self _ _ hnodtl]
    rw [hk0] at hchain
    exact hchain

/-- C1 witness: the amended theorem at a concrete in-window data hint. -/
theorem region_map_partition_witness :
    isChainB (mkBank 0).memory_base_address ((mkBank 0).memory_base_address + 0x4000)
      (regionList (resolve_blocks (applyHints 0 [⟨0x100, .data, 0x30⟩]))) = true :=
  region_map_partition 0 [⟨0x100, .data, 0x30⟩] (by decide)
